import Mathlib

/-!
# WebPlayer: the Storage document and its HTTP handlers

A shallow embedding of `main.go`.  Go slices are references into backing
arrays, and `main.go` relies on that (it filters `s.data.Playlists` and
`s.data.History` in place, and `GetAll` returns slice headers), so the
embedding keeps backing arrays in an explicit memory and a slice is an
address together with a length.
-/

namespace WebPlayer

/-! ## Data model (`main.go`, lines 21-40) -/

/-- Go `Channel`.  `AddedAt` is an `int64` that is only stored and compared. -/
structure Channel where
  ID : String
  Name : String
  URL : String
  Group : String
  Logo : String
  AddedAt : Int
deriving DecidableEq

/-- Go zero value of `Channel`. -/
instance : Inhabited Channel := ⟨⟨"", "", "", "", "", 0⟩⟩

/-- Go `Playlist`.  A `Channels` slice comes from decoding a request body or
the data file and `main.go` never assigns to its elements, so the field is
carried as the sequence of its elements. -/
structure Playlist where
  ID : String
  Name : String
  Channels : List Channel
  CreatedAt : Int
deriving DecidableEq

/-- Go zero value of `Playlist`. -/
instance : Inhabited Playlist := ⟨⟨"", "", [], 0⟩⟩

/-! ## Slices and backing arrays -/

/-- A slice header.  Every slice expression of `main.go` has low bound 0
(`x[:0]`, `x[:50]`), so a slice is the address of its backing array and a
length; its capacity is the size of the backing array. -/
structure Slice where
  arr : Nat
  len : Nat
deriving DecidableEq

/-- Memory holding the backing arrays of one element type, by address. -/
abbrev Heap (α : Type) := List (List α)

/-- The backing array stored at address `a`. -/
def arrAt {α : Type} (h : Heap α) (a : Nat) : List α := h.getD a []

/-- Go `cap(s)`. -/
def Slice.cap {α : Type} (h : Heap α) (s : Slice) : Nat := (arrAt h s.arr).length

/-- The elements `s[0], ..., s[len(s)-1]` as memory `h` holds them. -/
def Slice.view {α : Type} (h : Heap α) (s : Slice) : List α := (arrAt h s.arr).take s.len

/-- A slice header is valid in `h`: it points to an allocated array and its
length does not exceed its capacity. -/
def Slice.Valid {α : Type} (h : Heap α) (s : Slice) : Prop :=
  s.arr < h.length ∧ s.len ≤ s.cap h

instance {α : Type} (h : Heap α) (s : Slice) : Decidable (s.Valid h) := by
  unfold Slice.Valid; infer_instance

/-- Go `s[:n]`. -/
def reslice (s : Slice) (n : Nat) : Slice := ⟨s.arr, n⟩

/-- A composite literal `[]T{x1, ..., xn}`: a freshly allocated array. -/
def makeSlice {α : Type} (h : Heap α) (xs : List α) : Heap α × Slice :=
  (h ++ [xs], ⟨h.length, xs.length⟩)

/-- Go `s[i] = x`. -/
def setIndex {α : Type} (h : Heap α) (s : Slice) (i : Nat) (x : α) : Heap α :=
  h.set s.arr ((arrAt h s.arr).set i x)

/-- Go `append(s, xs...)`.  When the elements fit in the capacity they are
written into the backing array behind `s`; otherwise a new array is allocated
whose capacity is chosen by the runtime (`grow oldCap needed`, never less than
needed) and whose unused tail holds zero values. -/
def appendSlice {α : Type} [Inhabited α] (grow : Nat → Nat → Nat) (h : Heap α) (s : Slice)
    (xs : List α) : Heap α × Slice :=
  let A := arrAt h s.arr
  let n := s.len + xs.length
  if n ≤ A.length then
    (h.set s.arr (A.take s.len ++ xs ++ A.drop n), ⟨s.arr, n⟩)
  else
    (h ++ [A.take s.len ++ xs ++ List.replicate (max n (grow A.length n) - n) default],
      ⟨h.length, n⟩)

/-- The loop
`for _, x := range src { if keep x { dst = append(dst, x) } }`
with `n` iterations left, the next one reading index `i` of the array at `a`. -/
def filterLoop {α : Type} [Inhabited α] (grow : Nat → Nat → Nat) (keep : α → Bool) (a : Nat) :
    Nat → Nat → Heap α × Slice → Heap α × Slice
  | 0, _, acc => acc
  | n + 1, i, (h, dst) =>
      let x := (arrAt h a).getD i default
      filterLoop grow keep a n (i + 1) (if keep x then appendSlice grow h dst [x] else (h, dst))

/-- The idiom `dst := src[:0]; for _, x := range src { if keep x { dst = append(dst, x) } }`. -/
def filterInPlace {α : Type} [Inhabited α] (grow : Nat → Nat → Nat) (keep : α → Bool)
    (h : Heap α) (src : Slice) : Heap α × Slice :=
  filterLoop grow keep src.arr src.len 0 (h, reslice src 0)

/-! ## Storage (`main.go`, lines 37-132) -/

/-- Go `Store`: two slice headers. -/
structure Store where
  Playlists : Slice
  History : Slice
deriving DecidableEq

/-- The `Storage` object together with the memory its slices point into.
The lock is not represented: every method body runs under it, atomically. -/
structure Storage where
  pls : Heap Playlist
  chs : Heap Channel
  data : Store

/-- What a `Store` value denotes in a given memory. -/
structure Doc where
  playlists : List Playlist
  history : List Channel
deriving DecidableEq

/-- Contents of a `Store` value read through the given memory. -/
def Store.read (d : Store) (pls : Heap Playlist) (chs : Heap Channel) : Doc :=
  ⟨d.Playlists.view pls, d.History.view chs⟩

/-- The document currently held by the storage. -/
def Storage.doc (s : Storage) : Doc := s.data.read s.pls s.chs

/-- Both slices of `s.data` are valid. -/
def Storage.WF (s : Storage) : Prop :=
  s.data.Playlists.Valid s.pls ∧ s.data.History.Valid s.chs

instance (s : Storage) : Decidable s.WF := by
  unfold Storage.WF; infer_instance

/-- The state `NewStorage` builds when loading fails:
`Store{Playlists: []Playlist{}, History: []Channel{}}`. -/
def emptyStorage : Storage :=
  { pls := [[]], chs := [[]], data := ⟨⟨0, 0⟩, ⟨0, 0⟩⟩ }

/-- Go `save`: marshal `s.data` and write the file.  `json.MarshalIndent`
cannot fail on these types, so the result is the outcome of `os.WriteFile`,
given by the environment `fs` (`none` is success). -/
def save (fs : Doc → Option String) (s : Storage) : Option String := fs s.doc

/-- Go `GetAll`: returns the `Store` value (the slice headers). -/
def GetAll (s : Storage) : Storage × Store := (s, s.data)

/-- Index of the first element of `l` whose `ID` is `id`, counting from `i`:
the scan of the `range` loop of `AddPlaylist`. -/
def findID (id : String) : List Playlist → Nat → Option Nat
  | [], _ => none
  | e :: es, i => if e.ID = id then some i else findID id es (i + 1)

/-- Go `AddPlaylist`. -/
def AddPlaylist (grow : Nat → Nat → Nat) (fs : Doc → Option String) (s : Storage)
    (p : Playlist) : Storage × Option String :=
  match findID p.ID (s.data.Playlists.view s.pls) 0 with
  | some i =>
      let s1 : Storage := { s with pls := setIndex s.pls s.data.Playlists i p }
      (s1, save fs s1)
  | none =>
      let r := appendSlice grow s.pls s.data.Playlists [p]
      let s1 : Storage := { s with pls := r.1, data := { s.data with Playlists := r.2 } }
      (s1, save fs s1)

/-- Go `DeletePlaylist`. -/
def DeletePlaylist (grow : Nat → Nat → Nat) (fs : Doc → Option String) (s : Storage)
    (id : String) : Storage × Option String :=
  let r := filterInPlace grow (fun p => decide (p.ID ≠ id)) s.pls s.data.Playlists
  let s1 : Storage := { s with pls := r.1, data := { s.data with Playlists := r.2 } }
  (s1, save fs s1)

/-- Go `AddHistory`. -/
def AddHistory (grow : Nat → Nat → Nat) (fs : Doc → Option String) (s : Storage)
    (ch : Channel) : Storage × Option String :=
  let r1 := filterInPlace grow (fun x => decide (x.URL ≠ ch.URL)) s.chs s.data.History
  let r2 := makeSlice r1.1 [ch]
  let r3 := appendSlice grow r2.1 r2.2 (r1.2.view r2.1)
  let hist := if r3.2.len > 50 then reslice r3.2 50 else r3.2
  let s1 : Storage := { s with chs := r3.1, data := { s.data with History := hist } }
  (s1, save fs s1)

/-- Go `ClearHistory`. -/
def ClearHistory (fs : Doc → Option String) (s : Storage) : Storage × Option String :=
  let r := makeSlice s.chs []
  let s1 : Storage := { s with chs := r.1, data := { s.data with History := r.2 } }
  (s1, save fs s1)

/-- Recording a sequence of channels one after another with `AddHistory`
(the results of the calls are not looked at). -/
def recordAll (grow : Nat → Nat → Nat) (fs : Doc → Option String) (s : Storage)
    (chans : List Channel) : Storage :=
  chans.foldl (fun st ch => (AddHistory grow fs st ch).1) s

/-- States the mutating operations can produce from the empty Store, with any
arguments, any growth policy of the runtime and any behaviour of the file system. -/
inductive Reachable : Storage → Prop
  | init : Reachable emptyStorage
  | addPlaylist (grow : Nat → Nat → Nat) (fs : Doc → Option String) (s : Storage) (p : Playlist) :
      Reachable s → Reachable (AddPlaylist grow fs s p).1
  | deletePlaylist (grow : Nat → Nat → Nat) (fs : Doc → Option String) (s : Storage)
      (id : String) : Reachable s → Reachable (DeletePlaylist grow fs s id).1
  | addHistory (grow : Nat → Nat → Nat) (fs : Doc → Option String) (s : Storage) (ch : Channel) :
      Reachable s → Reachable (AddHistory grow fs s ch).1
  | clearHistory (fs : Doc → Option String) (s : Storage) :
      Reachable s → Reachable (ClearHistory fs s).1

/-! ## Properties the specification names -/

/-- The ids of the playlists are pairwise distinct. -/
def UniqueIDs (l : List Playlist) : Prop := (l.map (fun p => p.ID)).Nodup

/-- At most 50 entries and at most one entry per distinct url. -/
def HistoryInv (l : List Channel) : Prop :=
  l.length ≤ 50 ∧ (l.map (fun c => c.URL)).Nodup

/-- From a most-recent-first list, keep for each url only its first (most
recently recorded) entry. -/
def latestPerURL : List Channel → List Channel
  | [] => []
  | c :: cs => c :: (latestPerURL cs).filter (fun x => decide (x.URL ≠ c.URL))

/-! ## HTTP handlers (`main.go`, lines 136-233) -/

/-- What a handler wrote as the response body. -/
inductive Body where
  | empty
  | playlists (l : List Playlist)
  | playlist (p : Playlist)
  | message (key value : String)
deriving DecidableEq

/-- Status code and body written by a handler. -/
structure Response where
  status : Nat
  body : Body
deriving DecidableEq

/-- Go `genID`: the decimal text of `time.Now().UnixNano()`, here `nanos`. -/
def genID (nanos : Int) : String := toString nanos

/-- Go `handlePlaylists`.  `decoded` is the outcome of `readJSON(r, &p)`,
`nanos` and `secs` are the clock readings `time.Now().UnixNano()` and
`time.Now().Unix()`. -/
def handlePlaylists (grow : Nat → Nat → Nat) (fs : Doc → Option String) (nanos secs : Int)
    (s : Storage) (method : String) (decoded : Except String Playlist) : Storage × Response :=
  if method = "GET" then
    let r := GetAll s
    (r.1, ⟨200, Body.playlists (r.2.Playlists.view r.1.pls)⟩)
  else if method = "POST" then
    match decoded with
    | Except.error e => (s, ⟨400, Body.message "error" e⟩)
    | Except.ok p =>
        let p1 : Playlist := if p.ID = "" then { p with ID := genID nanos } else p
        let p2 : Playlist := if p1.CreatedAt = 0 then { p1 with CreatedAt := secs } else p1
        let r := AddPlaylist grow fs s p2
        match r.2 with
        | some e => (r.1, ⟨500, Body.message "error" e⟩)
        | none => (r.1, ⟨200, Body.playlist p2⟩)
  else
    (s, ⟨405, Body.empty⟩)

/-- The parts of `path/filepath` that depend on the operating system the
program is built for: `os.IsPathSeparator`, the length of
`filepath.VolumeName` of a path, and `filepath.Separator`. -/
structure Target where
  IsPathSeparator : Char → Bool
  volumeNameLen : List Char → Nat
  Separator : Char

/-- A Unix build: `/` is the only separator and there are no volume names. -/
def unixTarget : Target :=
  { IsPathSeparator := fun c => c == '/', volumeNameLen := fun _ => 0, Separator := '/' }

/-- Go `filepath.Base` of the standard library, for the build target `t`: the
empty path gives `.`; trailing separators are removed, then the volume name,
then everything up to the last separator; if nothing is left the result is
the separator. -/
def Base (t : Target) (path : String) : String :=
  if path = "" then "."
  else
    let stripped := path.data.rdropWhile t.IsPathSeparator
    let noVolume := stripped.drop (t.volumeNameLen stripped)
    let last := noVolume.rtakeWhile (fun c => !t.IsPathSeparator c)
    if last = [] then String.singleton t.Separator else String.mk last

/-- The text following the last `/` of a path. -/
def afterLastSlash (path : String) : String :=
  String.mk (path.data.rtakeWhile (fun c => c != '/'))

/-- A path with its trailing `/` characters removed. -/
def stripTrailingSlashes (path : String) : String :=
  String.mk (path.data.rdropWhile (fun c => c == '/'))

/-- Go `handlePlaylistByID`, built for the target `t`. -/
def handlePlaylistByID (t : Target) (grow : Nat → Nat → Nat) (fs : Doc → Option String)
    (s : Storage) (method path : String) : Storage × Response :=
  let id := Base t path
  if method ≠ "DELETE" then (s, ⟨405, Body.empty⟩)
  else
    let r := DeletePlaylist grow fs s id
    match r.2 with
    | some e => (r.1, ⟨500, Body.message "error" e⟩)
    | none => (r.1, ⟨200, Body.message "ok" "deleted"⟩)

/-! ## Concrete inputs used to instantiate the theorems -/

/-- A growth policy of the runtime: double the old capacity. -/
def growDouble : Nat → Nat → Nat := fun oldCap _ => 2 * oldCap

/-- A file system on which every write succeeds. -/
def diskOK : Doc → Option String := fun _ => none

/-- A file system on which every write fails. -/
def diskFull : Doc → Option String := fun _ => some "no space left on device"

/-- Playlist with id `a`. -/
def plA : Playlist := ⟨"a", "First", [], 1⟩

/-- Playlist with id `b`. -/
def plB : Playlist := ⟨"b", "Second", [], 2⟩

/-- Another playlist with id `a`. -/
def plA2 : Playlist := ⟨"a", "Renamed", [], 3⟩

/-- Channel with the given id and url. -/
def chan (id url : String) : Channel := ⟨id, "", url, "", "", 0⟩

/-- The storage after adding `plA` then `plB` to the empty Store. -/
def twoPlaylists : Storage :=
  (AddPlaylist growDouble diskOK (AddPlaylist growDouble diskOK emptyStorage plA).1 plB).1

/-- The storage after recording urls `u1` then `u2` in the empty Store. -/
def twoHistory : Storage :=
  recordAll growDouble diskOK emptyStorage [chan "1" "u1", chan "2" "u2"]

/-- Fifty-five channels with pairwise distinct urls `0`, ..., `54`. -/
def fiftyFive : List Channel := (List.range 55).map (fun i => chan (toString i) (toString i))

/-- A playlist whose id is the route word `playlists`. -/
def plRoute : Playlist := ⟨"playlists", "Named like the route", [], 4⟩

/-- The storage holding only `plRoute`. -/
def routeWordStorage : Storage := (AddPlaylist growDouble diskOK emptyStorage plRoute).1

/-- A playlist as decoded from a request body that gives a name and one channel,
no id and no creation time. -/
def plNew : Playlist := ⟨"", "My List", [chan "c1" "http://x/1"], 0⟩

/-! ## Slices: what the memory operations do -/

/-- Reading back the array just stored at an allocated address. -/
theorem arrAt_set_same {α : Type} (h : Heap α) (a : Nat) (A : List α) (ha : a < h.length) :
    arrAt (h.set a A) a = A := by
  simp [arrAt, List.getD_eq_getElem?_getD, ha]

/-- A newly allocated array is found at its address. -/
theorem arrAt_push_new {α : Type} (h : Heap α) (A : List α) : arrAt (h ++ [A]) h.length = A := by
  simp [arrAt, List.getD_eq_getElem?_getD]

/-- Allocation leaves the arrays already allocated as they were. -/
theorem arrAt_push_old {α : Type} (h : Heap α) (A : List α) (a : Nat) (ha : a < h.length) :
    arrAt (h ++ [A]) a = arrAt h a := by
  simp [arrAt, List.getD_eq_getElem?_getD, List.getElem?_append_left ha]

/-- `append` returns a valid slice whose elements are the old ones followed by the new. -/
theorem appendSlice_spec {α : Type} [Inhabited α] (grow : Nat → Nat → Nat) (h : Heap α) (s : Slice)
    (xs : List α) (hv : s.Valid h) :
    (appendSlice grow h s xs).2.Valid (appendSlice grow h s xs).1 ∧
    (appendSlice grow h s xs).2.view (appendSlice grow h s xs).1 = s.view h ++ xs := by
  obtain ⟨ha, hl⟩ := hv
  unfold Slice.cap at hl
  unfold appendSlice
  simp only
  split
  · rename_i hfit
    simp only [Slice.Valid, Slice.cap, Slice.view, List.length_set, arrAt_set_same _ _ _ ha]
    refine ⟨⟨ha, ?_⟩, ?_⟩
    · simp; omega
    · rw [List.take_append_of_le_length (by simp; omega)]
      simp [List.take_append_eq_append_take, hl]
  · rename_i hfit
    simp only [Slice.Valid, Slice.cap, Slice.view, arrAt_push_new]
    refine ⟨⟨by simp, ?_⟩, ?_⟩
    · simp; omega
    · rw [List.take_append_of_le_length (by simp; omega)]
      simp [List.take_append_eq_append_take, hl]

/-- Overwriting position `k` of an array leaves everything after `i ≥ k` in place. -/
theorem drop_overwrite {α : Type} (A : List α) (x : α) (k i : Nat) (hk : k ≤ i) (hi : i < A.length) :
    (A.take k ++ [x] ++ A.drop (k + 1)).drop (i + 1) = A.drop (i + 1) := by
  have hlen : (A.take k ++ [x]).length = k + 1 := by simp; omega
  rw [List.drop_append_eq_append_drop, hlen, List.drop_of_length_le (by omega), List.drop_drop]
  simp
  congr 1; omega

/-- After overwriting position `k`, the first `k + 1` elements are the old `k` and the new one. -/
theorem take_overwrite {α : Type} (A : List α) (x : α) (k : Nat) (hk : k < A.length) :
    (A.take k ++ [x] ++ A.drop (k + 1)).take (k + 1) = A.take k ++ [x] := by
  have hlen : (A.take k ++ [x]).length = k + 1 := by simp; omega
  rw [List.take_append_of_le_length (by omega), ← hlen, List.take_length]

/-- Loop invariant of the in-place filter. -/
theorem filterLoop_spec {α : Type} [Inhabited α] (grow : Nat → Nat → Nat) (keep : α → Bool) (a : Nat) :
    ∀ (n i : Nat) (h : Heap α) (dst : Slice),
      a < h.length → dst.arr = a → dst.len ≤ i → i + n ≤ (arrAt h a).length →
      (filterLoop grow keep a n i (h, dst)).2.arr = a ∧
      (filterLoop grow keep a n i (h, dst)).1.length = h.length ∧
      (arrAt (filterLoop grow keep a n i (h, dst)).1 a).length = (arrAt h a).length ∧
      (filterLoop grow keep a n i (h, dst)).2.len ≤ i + n ∧
      (filterLoop grow keep a n i (h, dst)).2.view (filterLoop grow keep a n i (h, dst)).1
        = dst.view h ++ (((arrAt h a).drop i).take n).filter keep := by
  intro n
  induction n with
  | zero =>
    intro i h dst ha hd hli hin
    simp [filterLoop]; omega
  | succ n ih =>
    intro i h dst ha hd hli hin
    have hi : i < (arrAt h a).length := by omega
    have hx : (arrAt h a).getD i default = (arrAt h a)[i] := by
      simp [List.getD_eq_getElem?_getD, hi]
    simp only [filterLoop, hx]
    generalize hA : arrAt h a = A at hi hin hx ⊢
    have hdrop : A.drop i = A[i] :: A.drop (i + 1) := by simp
    by_cases hk : keep A[i] = true
    · simp only [hk, if_true]
      have hfit : dst.len + 1 ≤ A.length := by omega
      have happ : appendSlice grow h dst [A[i]] =
          (h.set a (A.take dst.len ++ [A[i]] ++ A.drop (dst.len + 1)), ⟨a, dst.len + 1⟩) := by
        simp only [appendSlice, List.length_singleton, hd, hA, hfit, if_true]
      rw [happ]
      generalize hA1 : A.take dst.len ++ [A[i]] ++ A.drop (dst.len + 1) = A1
      have hlen1 : A1.length = A.length := by rw [← hA1]; simp; omega
      have harr1 : arrAt (h.set a A1) a = A1 := arrAt_set_same _ _ _ ha
      have hdrop1 : A1.drop (i + 1) = A.drop (i + 1) := by
        rw [← hA1]; exact drop_overwrite A _ _ _ hli hi
      have htake1 : A1.take (dst.len + 1) = A.take dst.len ++ [A[i]] := by
        rw [← hA1]; exact take_overwrite A _ _ (by omega)
      have := ih (i + 1) (h.set a A1) ⟨a, dst.len + 1⟩ (by simpa using ha) rfl (by simp; omega)
        (by rw [harr1, hlen1]; omega)
      rw [harr1, hlen1, hdrop1] at this
      obtain ⟨h1, h2, h3, h4, h5⟩ := this
      refine ⟨h1, by simpa using h2, h3, by omega, ?_⟩
      rw [h5, hdrop, List.take_succ_cons, List.filter_cons_of_pos hk]
      simp [Slice.view, harr1, htake1, hd, hA]
    · rw [if_neg hk]
      have := ih (i + 1) h dst ha hd (by omega) (by rw [hA]; omega)
      rw [hA] at this
      obtain ⟨h1, h2, h3, h4, h5⟩ := this
      refine ⟨h1, h2, h3, by omega, ?_⟩
      rw [h5, hdrop, List.take_succ_cons, List.filter_cons_of_neg hk]

/-- The in-place filter idiom computes the filter of the elements of the slice. -/
theorem filterInPlace_spec {α : Type} [Inhabited α] (grow : Nat → Nat → Nat) (keep : α → Bool)
    (h : Heap α) (s : Slice) (hv : s.Valid h) :
    (filterInPlace grow keep h s).2.Valid (filterInPlace grow keep h s).1 ∧
    (filterInPlace grow keep h s).2.view (filterInPlace grow keep h s).1
      = (s.view h).filter keep := by
  obtain ⟨ha, hl⟩ := hv
  have := filterLoop_spec grow keep s.arr s.len 0 h (reslice s 0) ha rfl (by simp [reslice])
    (by simpa [Slice.cap] using hl)
  obtain ⟨h1, h2, h3, h4, h5⟩ := this
  refine ⟨⟨?_, ?_⟩, ?_⟩
  · unfold filterInPlace; rw [h1, h2]; exact ha
  · unfold filterInPlace Slice.cap; rw [h1, h3]; unfold Slice.cap at hl; omega
  · unfold filterInPlace; rw [h5]; simp [Slice.view, reslice]

/-- A valid slice shows as many elements as its length. -/
theorem view_length {α : Type} (h : Heap α) (s : Slice) (hv : s.Valid h) : (s.view h).length = s.len := by
  simp [Slice.view]; exact hv.2

/-- Reslicing to a shorter length shows a prefix. -/
theorem reslice_spec {α : Type} (h : Heap α) (s : Slice) (n : Nat) (hv : s.Valid h) (hn : n ≤ s.len) :
    (reslice s n).Valid h ∧ (reslice s n).view h = (s.view h).take n := by
  obtain ⟨ha, hl⟩ := hv
  refine ⟨⟨ha, ?_⟩, ?_⟩
  · simp only [reslice, Slice.cap] at *; omega
  · simp [reslice, Slice.view, List.take_take, hn]

/-- A composite literal is a valid slice over its elements. -/
theorem makeSlice_spec {α : Type} (h : Heap α) (xs : List α) :
    (makeSlice h xs).2.Valid (makeSlice h xs).1 ∧ (makeSlice h xs).2.view (makeSlice h xs).1 = xs := by
  simp [makeSlice, Slice.Valid, Slice.view, Slice.cap, arrAt_push_new]

/-- Allocation does not disturb a valid slice. -/
theorem view_push {α : Type} (h : Heap α) (A : List α) (s : Slice) (hv : s.Valid h) :
    s.Valid (h ++ [A]) ∧ s.view (h ++ [A]) = s.view h := by
  obtain ⟨ha, hl⟩ := hv
  simp only [Slice.Valid, Slice.view, Slice.cap, arrAt_push_old h A s.arr ha] at *
  exact ⟨⟨by simp; omega, hl⟩, trivial⟩

/-- Indexed assignment through a valid slice. -/
theorem setIndex_spec {α : Type} (h : Heap α) (s : Slice) (i : Nat) (x : α) (hv : s.Valid h) :
    s.Valid (setIndex h s i x) ∧ s.view (setIndex h s i x) = (s.view h).set i x := by
  obtain ⟨ha, hl⟩ := hv
  simp only [Slice.Valid, Slice.view, Slice.cap, setIndex, arrAt_set_same _ _ _ ha,
    List.length_set] at *
  refine ⟨⟨ha, hl⟩, ?_⟩
  rw [List.set_take]

/-- A successful scan returns the first position holding the id. -/
theorem findID_some (id : String) :
    ∀ (l : List Playlist) (k i : Nat), findID id l k = some i →
      ∃ j, i = k + j ∧ ∃ hj : j < l.length, l[j].ID = id ∧
        ∀ m (hm : m < l.length), m < j → l[m].ID ≠ id := by
  intro l
  induction l with
  | nil => intro k i h; simp [findID] at h
  | cons e es ih =>
    intro k i h
    simp only [findID] at h
    split at h
    · rename_i he
      refine ⟨0, by simpa using (Option.some.inj h).symm, by simp, by simpa using he, ?_⟩
      intro m _ hm; omega
    · rename_i he
      obtain ⟨j, hij, hj, hid, hlt⟩ := ih (k + 1) i h
      refine ⟨j + 1, by omega, by simpa using hj, by simpa using hid, ?_⟩
      intro m hm hmj
      cases m with
      | zero => simpa using he
      | succ m => simpa using hlt m (by simpa using hm) (by omega)

/-- The scan fails exactly when no element has the id. -/
theorem findID_none (id : String) :
    ∀ (l : List Playlist) (k : Nat), findID id l k = none ↔ ∀ x ∈ l, x.ID ≠ id := by
  intro l
  induction l with
  | nil => intro k; simp [findID]
  | cons e es ih =>
    intro k
    simp only [findID]
    split
    · rename_i he; simp [he]
    · rename_i he; simp [ih (k + 1), he]

/-- What `AddPlaylist` does to the document. -/
theorem AddPlaylist_spec (grow : Nat → Nat → Nat) (fs : Doc → Option String) (s : Storage)
    (p : Playlist) (hw : s.WF) :
    (AddPlaylist grow fs s p).1.WF ∧
    (AddPlaylist grow fs s p).1.doc.history = s.doc.history ∧
    (AddPlaylist grow fs s p).1.doc.playlists =
      match findID p.ID s.doc.playlists 0 with
      | some i => s.doc.playlists.set i p
      | none => s.doc.playlists ++ [p] := by
  obtain ⟨hp, hh⟩ := hw
  simp only [Storage.doc, Store.read, AddPlaylist]
  cases hf : findID p.ID (s.data.Playlists.view s.pls) 0 with
  | some i =>
    have := setIndex_spec s.pls s.data.Playlists i p hp
    exact ⟨⟨this.1, hh⟩, rfl, this.2⟩
  | none =>
    have := appendSlice_spec grow s.pls s.data.Playlists [p] hp
    exact ⟨⟨this.1, hh⟩, rfl, this.2⟩

/-- What `DeletePlaylist` does to the document. -/
theorem DeletePlaylist_spec (grow : Nat → Nat → Nat) (fs : Doc → Option String) (s : Storage)
    (id : String) (hw : s.WF) :
    (DeletePlaylist grow fs s id).1.WF ∧
    (DeletePlaylist grow fs s id).1.doc.history = s.doc.history ∧
    (DeletePlaylist grow fs s id).1.doc.playlists =
      s.doc.playlists.filter (fun p => decide (p.ID ≠ id)) := by
  obtain ⟨hp, hh⟩ := hw
  have := filterInPlace_spec grow (fun p : Playlist => decide (p.ID ≠ id)) s.pls s.data.Playlists hp
  exact ⟨⟨this.1, hh⟩, rfl, this.2⟩

/-- What `AddHistory` does to the document. -/
theorem AddHistory_spec (grow : Nat → Nat → Nat) (fs : Doc → Option String) (s : Storage)
    (ch : Channel) (hw : s.WF) :
    (AddHistory grow fs s ch).1.WF ∧
    (AddHistory grow fs s ch).1.doc.playlists = s.doc.playlists ∧
    (AddHistory grow fs s ch).1.doc.history =
      (ch :: s.doc.history.filter (fun x => decide (x.URL ≠ ch.URL))).take 50 := by
  obtain ⟨hp, hh⟩ := hw
  simp only [Storage.doc, Store.read, AddHistory, Storage.WF]
  obtain ⟨hv1, hview1⟩ :=
    filterInPlace_spec grow (fun x : Channel => decide (x.URL ≠ ch.URL)) s.chs s.data.History hh
  generalize filterInPlace grow (fun x : Channel => decide (x.URL ≠ ch.URL)) s.chs s.data.History
    = r1 at hv1 hview1 ⊢
  obtain ⟨hv2, hview2⟩ := makeSlice_spec r1.1 [ch]
  obtain ⟨hv1', hview1'⟩ := view_push r1.1 [ch] r1.2 hv1
  have hr2 : (makeSlice r1.1 [ch]).1 = r1.1 ++ [[ch]] := rfl
  rw [← hr2] at hv1' hview1'
  generalize makeSlice r1.1 [ch] = r2 at hv2 hview2 hv1' hview1' ⊢
  obtain ⟨hv3, hview3⟩ := appendSlice_spec grow r2.1 r2.2 (r1.2.view r2.1) hv2
  generalize appendSlice grow r2.1 r2.2 (r1.2.view r2.1) = r3 at hv3 hview3 ⊢
  rw [hview2, hview1', hview1] at hview3
  have hlen := view_length r3.1 r3.2 hv3
  refine ⟨⟨hp, ?_⟩, ?_⟩
  · split
    · exact (reslice_spec r3.1 r3.2 50 hv3 (by omega)).1
    · exact hv3
  · refine ⟨trivial, ?_⟩
    split
    · rw [(reslice_spec r3.1 r3.2 50 hv3 (by omega)).2, hview3]; rfl
    · rw [hview3] at hlen ⊢
      rw [List.singleton_append] at hlen ⊢
      rw [List.take_of_length_le (by omega)]

/-- What `ClearHistory` does to the document. -/
theorem ClearHistory_spec (fs : Doc → Option String) (s : Storage) (hw : s.WF) :
    (ClearHistory fs s).1.WF ∧
    (ClearHistory fs s).1.doc.playlists = s.doc.playlists ∧
    (ClearHistory fs s).1.doc.history = [] := by
  obtain ⟨hp, hh⟩ := hw
  have := makeSlice_spec s.chs ([] : List Channel)
  exact ⟨⟨hp, this.1⟩, rfl, this.2⟩

/-- The empty Store has valid slices. -/
theorem emptyStorage_WF : emptyStorage.WF := by decide

/-- The empty Store holds no playlist and no history. -/
theorem emptyStorage_doc : emptyStorage.doc = ⟨[], []⟩ := by decide

/-! ## Storage operations -/

/-- C1: when some existing playlist has the id of `p`, `AddPlaylist` keeps the
length of the list, puts `p` at the position of the (first) matching entry and
leaves the entry at every other position unchanged. -/
theorem AddPlaylist_replaces_in_place (grow : Nat → Nat → Nat) (fs : Doc → Option String)
    (s : Storage) (p : Playlist) (hw : s.WF) (hex : ∃ q ∈ s.doc.playlists, q.ID = p.ID) :
    ∃ i, ∃ hi : i < s.doc.playlists.length,
      s.doc.playlists[i].ID = p.ID ∧
      (∀ m (hm : m < s.doc.playlists.length), m < i → s.doc.playlists[m].ID ≠ p.ID) ∧
      (AddPlaylist grow fs s p).1.doc.playlists.length = s.doc.playlists.length ∧
      (AddPlaylist grow fs s p).1.doc.playlists[i]? = some p ∧
      ∀ j, j ≠ i → (AddPlaylist grow fs s p).1.doc.playlists[j]? = s.doc.playlists[j]? := by
  obtain ⟨-, -, hpl⟩ := AddPlaylist_spec grow fs s p hw
  cases hf : findID p.ID s.doc.playlists 0 with
  | none =>
    obtain ⟨q, hq, hqid⟩ := hex
    exact absurd hqid ((findID_none p.ID _ 0).1 hf q hq)
  | some i =>
    rw [hf] at hpl
    obtain ⟨j, hij, hj, hid, hlt⟩ := findID_some p.ID _ 0 i hf
    have hi : i = j := by omega
    subst hi
    refine ⟨i, hj, hid, hlt, ?_, ?_, ?_⟩
    · rw [hpl, List.length_set]
    · rw [hpl, List.getElem?_set_self hj]
    · intro k hk
      rw [hpl, List.getElem?_set_ne (Ne.symm hk)]

/-- Instance of C1: adding `plA2` to the storage holding `plA`, `plB`. -/
theorem AddPlaylist_replaces_in_place_witness :
    twoPlaylists.WF ∧ (∃ q ∈ twoPlaylists.doc.playlists, q.ID = plA2.ID) ∧
    ∃ i, ∃ hi : i < twoPlaylists.doc.playlists.length,
      twoPlaylists.doc.playlists[i].ID = plA2.ID ∧
      (∀ m (hm : m < twoPlaylists.doc.playlists.length), m < i →
        twoPlaylists.doc.playlists[m].ID ≠ plA2.ID) ∧
      (AddPlaylist growDouble diskOK twoPlaylists plA2).1.doc.playlists.length
        = twoPlaylists.doc.playlists.length ∧
      (AddPlaylist growDouble diskOK twoPlaylists plA2).1.doc.playlists[i]? = some plA2 ∧
      ∀ j, j ≠ i → (AddPlaylist growDouble diskOK twoPlaylists plA2).1.doc.playlists[j]?
        = twoPlaylists.doc.playlists[j]? :=
  ⟨by decide, ⟨plA, by decide, by decide⟩,
    AddPlaylist_replaces_in_place growDouble diskOK twoPlaylists plA2 (by decide)
      ⟨plA, by decide, by decide⟩⟩

/-- C2: after `AddHistory ch` the history has `ch` at index 0, `ch` is its only
entry with the url of `ch` (no entry at a later index has that url), and the
entries with another url are the first 49 of those the old history had, in
the same order. -/
theorem AddHistory_front_dedup (grow : Nat → Nat → Nat) (fs : Doc → Option String)
    (s : Storage) (ch : Channel) (hw : s.WF) :
    (AddHistory grow fs s ch).1.doc.history[0]? = some ch ∧
    (AddHistory grow fs s ch).1.doc.history.filter (fun x => decide (x.URL = ch.URL)) = [ch] ∧
    (∀ i c, 0 < i → (AddHistory grow fs s ch).1.doc.history[i]? = some c → c.URL ≠ ch.URL) ∧
    (AddHistory grow fs s ch).1.doc.history.filter (fun x => decide (x.URL ≠ ch.URL))
      = (s.doc.history.filter (fun x => decide (x.URL ≠ ch.URL))).take 49 ∧
    List.Sublist ((AddHistory grow fs s ch).1.doc.history.filter
      (fun x => decide (x.URL ≠ ch.URL))) s.doc.history := by
  obtain ⟨-, -, hh⟩ := AddHistory_spec grow fs s ch hw
  rw [hh, List.take_succ_cons]
  generalize hF : s.doc.history.filter (fun x => decide (x.URL ≠ ch.URL)) = F
  have hall : ∀ c ∈ F.take 49, c.URL ≠ ch.URL := by
    intro c hc
    have : c ∈ F := List.mem_of_mem_take hc
    rw [← hF] at this
    simpa using (List.mem_filter.1 this).2
  have hne : (F.take 49).filter (fun x => decide (x.URL ≠ ch.URL)) = F.take 49 :=
    List.filter_eq_self.2 (fun c hc => by simpa using hall c hc)
  have heq : (F.take 49).filter (fun x => decide (x.URL = ch.URL)) = [] :=
    List.filter_eq_nil_iff.2 (fun c hc => by simpa using hall c hc)
  refine ⟨by simp, ?_, ?_, ?_, ?_⟩
  · simp [List.filter_cons, heq]
  · intro i c hi hc
    cases i with
    | zero => omega
    | succ i =>
      rw [List.getElem?_cons_succ] at hc
      exact hall c (List.getElem?_mem hc)
  · rw [List.filter_cons_of_neg (by simp), hne]
  · rw [List.filter_cons_of_neg (by simp), hne, ← hF]
    exact (List.take_sublist _ _).trans (List.filter_sublist _)

/-- Instance of C2: recording url `u1` again in the history `u2, u1`. -/
theorem AddHistory_front_dedup_witness :
    twoHistory.WF ∧
    (AddHistory growDouble diskOK twoHistory (chan "3" "u1")).1.doc.history[0]?
      = some (chan "3" "u1") :=
  ⟨by decide, (AddHistory_front_dedup growDouble diskOK twoHistory (chan "3" "u1") (by decide)).1⟩

/-- Recording a sequence folds the `AddHistory` step over the history list. -/
theorem recordAll_spec (grow : Nat → Nat → Nat) (fs : Doc → Option String) :
    ∀ (chans : List Channel) (s : Storage), s.WF →
      (recordAll grow fs s chans).WF ∧
      (recordAll grow fs s chans).doc.playlists = s.doc.playlists ∧
      (recordAll grow fs s chans).doc.history =
        chans.foldl (fun h ch => (ch :: h.filter (fun x => decide (x.URL ≠ ch.URL))).take 50)
          s.doc.history := by
  intro chans
  induction chans with
  | nil => intro s hw; exact ⟨hw, rfl, rfl⟩
  | cons c cs ih =>
    intro s hw
    obtain ⟨hw1, hp1, hh1⟩ := AddHistory_spec grow fs s c hw
    obtain ⟨hw2, hp2, hh2⟩ := ih (AddHistory grow fs s c).1 hw1
    refine ⟨hw2, hp2.trans hp1, ?_⟩
    simp only [recordAll, List.foldl_cons] at hh2 ⊢
    rw [hh2, hh1]

/-- No url occurs twice in `latestPerURL l`. -/
theorem latestPerURL_nodup : ∀ l : List Channel, ((latestPerURL l).map (fun c => c.URL)).Nodup := by
  intro l
  induction l with
  | nil => simp [latestPerURL]
  | cons c cs ih =>
    simp only [latestPerURL, List.map_cons, List.nodup_cons]
    refine ⟨?_, ?_⟩
    · simp [List.mem_map, List.mem_filter]
    · exact ih.sublist ((List.filter_sublist _).map _)

/-- A list without repeated urls is its own `latestPerURL`. -/
theorem latestPerURL_of_nodup : ∀ l : List Channel, (l.map (fun c => c.URL)).Nodup →
    latestPerURL l = l := by
  intro l
  induction l with
  | nil => intro _; rfl
  | cons c cs ih =>
    intro h
    simp only [List.map_cons, List.nodup_cons] at h
    simp only [latestPerURL, ih h.2]
    congr 1
    apply List.filter_eq_self.2
    intro x hx
    have : x.URL ≠ c.URL := fun e => h.1 (List.mem_map.2 ⟨x, hx, e⟩)
    simpa using this

/-- The entries of `latestPerURL l` are entries of `l`, in the same order. -/
theorem latestPerURL_sublist : ∀ l : List Channel, List.Sublist (latestPerURL l) l := by
  intro l
  induction l with
  | nil => exact List.Sublist.refl _
  | cons c cs ih => exact ((List.filter_sublist _).trans ih).cons₂ c

/-- An entry is kept by `latestPerURL` exactly when it occurs in the list with
no entry of the same url before it. -/
theorem mem_latestPerURL : ∀ (l : List Channel) (x : Channel),
    x ∈ latestPerURL l ↔ ∃ l1 l2, l = l1 ++ x :: l2 ∧ ∀ y ∈ l1, y.URL ≠ x.URL := by
  intro l
  induction l with
  | nil => intro x; simp [latestPerURL]
  | cons c cs ih =>
    intro x
    simp only [latestPerURL, List.mem_cons, List.mem_filter, ih x]
    constructor
    · rintro (rfl | ⟨⟨l1, l2, rfl, hl1⟩, hne⟩)
      · exact ⟨[], cs, rfl, by simp⟩
      · refine ⟨c :: l1, l2, rfl, ?_⟩
        intro y hy
        rcases List.mem_cons.1 hy with rfl | hy
        · intro e; simp [e] at hne
        · exact hl1 y hy
    · rintro ⟨l1, l2, heq, hl1⟩
      cases l1 with
      | nil =>
        left
        simp only [List.nil_append, List.cons.injEq] at heq
        exact heq.1.symm
      | cons d l1 =>
        right
        simp only [List.cons_append, List.cons.injEq] at heq
        obtain ⟨rfl, rfl⟩ := heq
        refine ⟨⟨l1, l2, rfl, fun y hy => hl1 y (List.mem_cons_of_mem _ hy)⟩, ?_⟩
        have := hl1 c (List.mem_cons_self _ _)
        simpa using fun e => this e.symm

/-- Dropping the entries of one url from a list without repeated urls commutes
with truncation, up to one position. -/
theorem take_filter_take (u : String) : ∀ (D : List Channel) (k : Nat),
    (D.map (fun c => c.URL)).Nodup →
    ((D.take (k + 1)).filter (fun x => decide (x.URL ≠ u))).take k
      = (D.filter (fun x => decide (x.URL ≠ u))).take k := by
  intro D
  induction D with
  | nil => intro k _; simp
  | cons d D ih =>
    intro k hnd
    simp only [List.map_cons, List.nodup_cons] at hnd
    cases k with
    | zero => simp
    | succ k =>
      rw [List.take_succ_cons]
      by_cases hd : d.URL = u
      · have hall : ∀ x ∈ D, x.URL ≠ u := fun x hx e =>
          hnd.1 (List.mem_map.2 ⟨x, hx, e.trans hd.symm⟩)
        have h1 : D.filter (fun x => decide (x.URL ≠ u)) = D :=
          List.filter_eq_self.2 (fun x hx => by simpa using hall x hx)
        have h2 : (D.take (k + 1)).filter (fun x => decide (x.URL ≠ u)) = D.take (k + 1) :=
          List.filter_eq_self.2 (fun x hx => by simpa using hall x (List.mem_of_mem_take hx))
        rw [List.filter_cons_of_neg (by simpa using hd), List.filter_cons_of_neg (by simpa using hd),
          h1, h2, List.take_take, Nat.min_self]
      · rw [List.filter_cons_of_pos (by simpa using hd), List.filter_cons_of_pos (by simpa using hd),
          List.take_succ_cons, List.take_succ_cons, ih k hnd.2]

/-- The truncating fold equals truncating once at the end. -/
theorem foldl_history_eq (chans : List Channel) :
    chans.foldl (fun h ch => (ch :: h.filter (fun x => decide (x.URL ≠ ch.URL))).take 50) []
      = (latestPerURL chans.reverse).take 50 := by
  induction chans using List.reverseRecOn with
  | nil => rfl
  | append_singleton cs c ih =>
    rw [List.foldl_append, List.foldl_cons, List.foldl_nil, ih, List.reverse_append,
      List.reverse_singleton, List.singleton_append, latestPerURL, List.take_succ_cons,
      List.take_succ_cons, take_filter_take c.URL _ 49 (latestPerURL_nodup _)]

/-- C3: starting from an empty history, recording a sequence of channels
leaves the first 50 entries of the reversed sequence with only the most recent
entry of each url kept; with pairwise distinct urls that is the `min n 50`
most recently recorded channels, most recent first (exactly 50 for `n = 55`). -/
theorem recordAll_history (grow : Nat → Nat → Nat) (fs : Doc → Option String)
    (s : Storage) (chans : List Channel) (hw : s.WF) (he : s.doc.history = []) :
    (recordAll grow fs s chans).doc.history = (latestPerURL chans.reverse).take 50 ∧
    ((chans.map (fun c => c.URL)).Nodup →
      (recordAll grow fs s chans).doc.history = chans.reverse.take 50 ∧
      (recordAll grow fs s chans).doc.history.length = min chans.length 50 ∧
      (chans.length = 55 → (recordAll grow fs s chans).doc.history.length = 50)) := by
  obtain ⟨-, -, hh⟩ := recordAll_spec grow fs chans s hw
  rw [he, foldl_history_eq] at hh
  refine ⟨hh, ?_⟩
  intro hnd
  have hrev : (chans.reverse.map (fun c => c.URL)).Nodup := by
    rw [List.map_reverse]; exact List.nodup_reverse.2 hnd
  rw [latestPerURL_of_nodup _ hrev] at hh
  refine ⟨hh, ?_, ?_⟩
  · rw [hh, List.length_take, List.length_reverse, Nat.min_comm]
  · intro h55
    rw [hh, List.length_take, List.length_reverse, h55]
    rfl

/-- Instance of C3: 55 channels with urls `0`, ..., `54` recorded in the empty Store. -/
theorem recordAll_history_witness :
    emptyStorage.WF ∧ emptyStorage.doc.history = [] ∧
    (fiftyFive.map (fun c => c.URL)).Nodup ∧ fiftyFive.length = 55 ∧
    (recordAll growDouble diskOK emptyStorage fiftyFive).doc.history = fiftyFive.reverse.take 50 ∧
    (recordAll growDouble diskOK emptyStorage fiftyFive).doc.history.length = 50 :=
  ⟨by decide, by decide, by decide, by decide,
    ((recordAll_history growDouble diskOK emptyStorage fiftyFive (by decide) (by decide)).2
      (by decide)).1,
    ((recordAll_history growDouble diskOK emptyStorage fiftyFive (by decide) (by decide)).2
      (by decide)).2.2 (by decide)⟩

/-- Reachable states have valid slices. -/
theorem Reachable_WF (s : Storage) (hr : Reachable s) : s.WF := by
  induction hr with
  | init => exact emptyStorage_WF
  | addPlaylist grow fs s p _ ih => exact (AddPlaylist_spec grow fs s p ih).1
  | deletePlaylist grow fs s id _ ih => exact (DeletePlaylist_spec grow fs s id ih).1
  | addHistory grow fs s ch _ ih => exact (AddHistory_spec grow fs s ch ih).1
  | clearHistory fs s _ ih => exact (ClearHistory_spec fs s ih).1

/-- `AddPlaylist` keeps the ids distinct. -/
theorem UniqueIDs_AddPlaylist (grow : Nat → Nat → Nat) (fs : Doc → Option String) (s : Storage)
    (p : Playlist) (hw : s.WF) (hu : UniqueIDs s.doc.playlists) :
    UniqueIDs (AddPlaylist grow fs s p).1.doc.playlists := by
  obtain ⟨-, -, hpl⟩ := AddPlaylist_spec grow fs s p hw
  unfold UniqueIDs at *
  cases hf : findID p.ID s.doc.playlists 0 with
  | none =>
    rw [hf] at hpl
    rw [hpl, List.map_append, List.map_singleton]
    refine List.Nodup.append hu (List.nodup_singleton _) ?_
    intro x hx hx2
    rw [List.mem_singleton] at hx2
    subst hx2
    obtain ⟨q, hq, hqid⟩ := List.mem_map.1 hx
    exact (findID_none p.ID _ 0).1 hf q hq hqid
  | some i =>
    rw [hf] at hpl
    obtain ⟨j, hij, hj, hid, -⟩ := findID_some p.ID _ 0 i hf
    have hi : i = j := by omega
    subst hi
    have : (s.doc.playlists.set i p).map (fun q => q.ID) = s.doc.playlists.map (fun q => q.ID) := by
      rw [List.map_set]
      apply List.ext_getElem?
      intro k
      by_cases hk : i = k
      · subst hk; simp [hj, hid]
      · rw [List.getElem?_set_ne hk]
    rw [hpl, this]
    exact hu

/-- `DeletePlaylist` keeps the ids distinct. -/
theorem UniqueIDs_DeletePlaylist (grow : Nat → Nat → Nat) (fs : Doc → Option String)
    (s : Storage) (id : String) (hw : s.WF) (hu : UniqueIDs s.doc.playlists) :
    UniqueIDs (DeletePlaylist grow fs s id).1.doc.playlists := by
  obtain ⟨-, -, hpl⟩ := DeletePlaylist_spec grow fs s id hw
  unfold UniqueIDs at *
  rw [hpl]
  exact hu.sublist ((List.filter_sublist _).map _)

/-- `AddHistory` re-establishes the history invariant from distinct urls. -/
theorem HistoryInv_AddHistory (grow : Nat → Nat → Nat) (fs : Doc → Option String) (s : Storage)
    (ch : Channel) (hw : s.WF) (hu : (s.doc.history.map (fun c => c.URL)).Nodup) :
    HistoryInv (AddHistory grow fs s ch).1.doc.history := by
  obtain ⟨-, -, hh⟩ := AddHistory_spec grow fs s ch hw
  unfold HistoryInv
  rw [hh]
  refine ⟨by rw [List.length_take]; omega, ?_⟩
  refine List.Nodup.sublist ((List.take_sublist _ _).map _) ?_
  rw [List.map_cons, List.nodup_cons]
  refine ⟨?_, hu.sublist ((List.filter_sublist _).map _)⟩
  simp [List.mem_map, List.mem_filter]

/-- C4: pairwise distinct playlist ids hold in the empty Store, are preserved
by `AddPlaylist`, `DeletePlaylist`, `AddHistory` and `ClearHistory` with any
argument (from any storage whose slices are valid), and so hold in every state
reachable from the empty Store. -/
theorem uniqueIDs_invariant :
    UniqueIDs emptyStorage.doc.playlists ∧
    (∀ grow fs s p, s.WF → UniqueIDs s.doc.playlists →
      UniqueIDs (AddPlaylist grow fs s p).1.doc.playlists) ∧
    (∀ grow fs s id, s.WF → UniqueIDs s.doc.playlists →
      UniqueIDs (DeletePlaylist grow fs s id).1.doc.playlists) ∧
    (∀ grow fs s ch, s.WF → UniqueIDs s.doc.playlists →
      UniqueIDs (AddHistory grow fs s ch).1.doc.playlists) ∧
    (∀ fs s, s.WF → UniqueIDs s.doc.playlists →
      UniqueIDs (ClearHistory fs s).1.doc.playlists) ∧
    (∀ s, Reachable s → UniqueIDs s.doc.playlists) := by
  have hA := UniqueIDs_AddPlaylist
  have hD := UniqueIDs_DeletePlaylist
  have hH : ∀ grow fs s ch, s.WF → UniqueIDs s.doc.playlists →
      UniqueIDs (AddHistory grow fs s ch).1.doc.playlists := by
    intro grow fs s ch hw hu
    rw [(AddHistory_spec grow fs s ch hw).2.1]; exact hu
  have hC : ∀ fs s, s.WF → UniqueIDs s.doc.playlists →
      UniqueIDs (ClearHistory fs s).1.doc.playlists := by
    intro fs s hw hu
    rw [(ClearHistory_spec fs s hw).2.1]; exact hu
  have h0 : UniqueIDs emptyStorage.doc.playlists := by
    rw [emptyStorage_doc]; exact List.nodup_nil
  refine ⟨h0, hA, hD, hH, hC, ?_⟩
  intro s hr
  induction hr with
  | init => exact h0
  | addPlaylist grow fs s p hr ih => exact hA grow fs s p (Reachable_WF s hr) ih
  | deletePlaylist grow fs s id hr ih => exact hD grow fs s id (Reachable_WF s hr) ih
  | addHistory grow fs s ch hr ih => exact hH grow fs s ch (Reachable_WF s hr) ih
  | clearHistory fs s hr ih => exact hC fs s (Reachable_WF s hr) ih

/-- Instance of C4: replacing `plA` by `plA2` in the storage holding `plA`, `plB`. -/
theorem uniqueIDs_invariant_witness :
    twoPlaylists.WF ∧ UniqueIDs twoPlaylists.doc.playlists ∧ Reachable twoPlaylists ∧
    UniqueIDs (AddPlaylist growDouble diskOK twoPlaylists plA2).1.doc.playlists ∧
    UniqueIDs (DeletePlaylist growDouble diskOK twoPlaylists "a").1.doc.playlists :=
  ⟨by decide, by unfold UniqueIDs; decide,
    Reachable.addPlaylist _ _ _ _ (Reachable.addPlaylist _ _ _ _ Reachable.init),
    uniqueIDs_invariant.2.1 growDouble diskOK twoPlaylists plA2 (by decide)
      (by unfold UniqueIDs; decide),
    uniqueIDs_invariant.2.2.1 growDouble diskOK twoPlaylists "a" (by decide)
      (by unfold UniqueIDs; decide)⟩

/-- C5: the history invariant (at most 50 entries, at most one entry per url)
holds in the empty Store and is preserved by `AddPlaylist`, `DeletePlaylist`,
`AddHistory` and `ClearHistory` with any argument, so it holds in every
reachable state; and after `AddHistory` the history has at most 50 entries
whatever it was before. -/
theorem historyInv_invariant :
    HistoryInv emptyStorage.doc.history ∧
    (∀ grow fs s p, s.WF → HistoryInv s.doc.history →
      HistoryInv (AddPlaylist grow fs s p).1.doc.history) ∧
    (∀ grow fs s id, s.WF → HistoryInv s.doc.history →
      HistoryInv (DeletePlaylist grow fs s id).1.doc.history) ∧
    (∀ grow fs s ch, s.WF → HistoryInv s.doc.history →
      HistoryInv (AddHistory grow fs s ch).1.doc.history) ∧
    (∀ fs s, s.WF → HistoryInv s.doc.history →
      HistoryInv (ClearHistory fs s).1.doc.history) ∧
    (∀ s, Reachable s → HistoryInv s.doc.history) ∧
    (∀ grow fs s ch, s.WF → (AddHistory grow fs s ch).1.doc.history.length ≤ 50) := by
  have hA : ∀ grow fs s p, s.WF → HistoryInv s.doc.history →
      HistoryInv (AddPlaylist grow fs s p).1.doc.history := by
    intro grow fs s p hw hi
    rw [(AddPlaylist_spec grow fs s p hw).2.1]; exact hi
  have hD : ∀ grow fs s id, s.WF → HistoryInv s.doc.history →
      HistoryInv (DeletePlaylist grow fs s id).1.doc.history := by
    intro grow fs s id hw hi
    rw [(DeletePlaylist_spec grow fs s id hw).2.1]; exact hi
  have hH : ∀ grow fs s ch, s.WF → HistoryInv s.doc.history →
      HistoryInv (AddHistory grow fs s ch).1.doc.history :=
    fun grow fs s ch hw hi => HistoryInv_AddHistory grow fs s ch hw hi.2
  have hC : ∀ fs s, s.WF → HistoryInv s.doc.history →
      HistoryInv (ClearHistory fs s).1.doc.history := by
    intro fs s hw _
    rw [(ClearHistory_spec fs s hw).2.2]; exact ⟨by simp, List.nodup_nil⟩
  have h0 : HistoryInv emptyStorage.doc.history := by
    rw [emptyStorage_doc]; exact ⟨by simp, List.nodup_nil⟩
  refine ⟨h0, hA, hD, hH, hC, ?_, ?_⟩
  · intro s hr
    induction hr with
    | init => exact h0
    | addPlaylist grow fs s p hr ih => exact hA grow fs s p (Reachable_WF s hr) ih
    | deletePlaylist grow fs s id hr ih => exact hD grow fs s id (Reachable_WF s hr) ih
    | addHistory grow fs s ch hr ih => exact hH grow fs s ch (Reachable_WF s hr) ih
    | clearHistory fs s hr ih => exact hC fs s (Reachable_WF s hr) ih
  · intro grow fs s ch hw
    rw [(AddHistory_spec grow fs s ch hw).2.2, List.length_take]
    omega

/-- Instance of C5: recording url `u1` again in the history `u2, u1`. -/
theorem historyInv_invariant_witness :
    twoHistory.WF ∧ HistoryInv twoHistory.doc.history ∧
    HistoryInv (AddHistory growDouble diskOK twoHistory (chan "3" "u1")).1.doc.history ∧
    (AddHistory growDouble diskOK twoHistory (chan "3" "u1")).1.doc.history.length ≤ 50 :=
  ⟨by decide, by unfold HistoryInv; decide,
    historyInv_invariant.2.2.2.1 growDouble diskOK twoHistory (chan "3" "u1") (by decide)
      (by unfold HistoryInv; decide),
    historyInv_invariant.2.2.2.2.2.2 growDouble diskOK twoHistory (chan "3" "u1") (by decide)⟩

/-- C6: `DeletePlaylist id` leaves exactly the playlists whose id differs from
`id`, in their original order (none with that id remains); when no playlist
has the id the list is unchanged; and the result of the call is the result of
the persist step, so an absent id is never an error. -/
theorem DeletePlaylist_removes_matching (grow : Nat → Nat → Nat) (fs : Doc → Option String)
    (s : Storage) (id : String) (hw : s.WF) :
    (DeletePlaylist grow fs s id).1.doc.playlists
      = s.doc.playlists.filter (fun p => decide (p.ID ≠ id)) ∧
    (∀ q ∈ (DeletePlaylist grow fs s id).1.doc.playlists, q.ID ≠ id) ∧
    ((∀ q ∈ s.doc.playlists, q.ID ≠ id) →
      (DeletePlaylist grow fs s id).1.doc.playlists = s.doc.playlists) ∧
    (DeletePlaylist grow fs s id).2 = save fs (DeletePlaylist grow fs s id).1 ∧
    (save fs (DeletePlaylist grow fs s id).1 = none → (DeletePlaylist grow fs s id).2 = none) := by
  obtain ⟨-, -, hpl⟩ := DeletePlaylist_spec grow fs s id hw
  refine ⟨hpl, ?_, ?_, rfl, fun h => h⟩
  · intro q hq
    rw [hpl] at hq
    simpa using (List.mem_filter.1 hq).2
  · intro hall
    rw [hpl]
    exact List.filter_eq_self.2 (fun q hq => by simpa using hall q hq)

/-- Instance of C6: deleting the absent id `zzz` from the storage holding `plA`, `plB`. -/
theorem DeletePlaylist_removes_matching_witness :
    twoPlaylists.WF ∧ (∀ q ∈ twoPlaylists.doc.playlists, q.ID ≠ "zzz") ∧
    (DeletePlaylist growDouble diskOK twoPlaylists "zzz").1.doc.playlists
      = twoPlaylists.doc.playlists ∧
    (DeletePlaylist growDouble diskOK twoPlaylists "zzz").2 = none :=
  ⟨by decide, by decide,
    (DeletePlaylist_removes_matching growDouble diskOK twoPlaylists "zzz" (by decide)).2.2.1
      (by decide),
    (DeletePlaylist_removes_matching growDouble diskOK twoPlaylists "zzz" (by decide)).2.2.2.2
      rfl⟩

/-- C7: each mutating operation applies its mutation to the in-memory
document, returns exactly the result of the persist step on the mutated state
(an error if and only if `save` fails), and leaves the same mutated state
whether that step succeeds or fails. -/
theorem mutations_report_save_and_keep_state (grow : Nat → Nat → Nat)
    (fs fs2 : Doc → Option String) (s : Storage) (p : Playlist) (id : String) (ch : Channel)
    (hw : s.WF) :
    ((AddPlaylist grow fs s p).2 = save fs (AddPlaylist grow fs s p).1 ∧
      (AddPlaylist grow fs s p).1 = (AddPlaylist grow fs2 s p).1 ∧
      (AddPlaylist grow fs s p).1.doc.playlists =
        (match findID p.ID s.doc.playlists 0 with
          | some i => s.doc.playlists.set i p
          | none => s.doc.playlists ++ [p]) ∧
      (AddPlaylist grow fs s p).1.doc.history = s.doc.history) ∧
    ((DeletePlaylist grow fs s id).2 = save fs (DeletePlaylist grow fs s id).1 ∧
      (DeletePlaylist grow fs s id).1 = (DeletePlaylist grow fs2 s id).1 ∧
      (DeletePlaylist grow fs s id).1.doc.playlists =
        s.doc.playlists.filter (fun q => decide (q.ID ≠ id)) ∧
      (DeletePlaylist grow fs s id).1.doc.history = s.doc.history) ∧
    ((AddHistory grow fs s ch).2 = save fs (AddHistory grow fs s ch).1 ∧
      (AddHistory grow fs s ch).1 = (AddHistory grow fs2 s ch).1 ∧
      (AddHistory grow fs s ch).1.doc.history =
        (ch :: s.doc.history.filter (fun x => decide (x.URL ≠ ch.URL))).take 50 ∧
      (AddHistory grow fs s ch).1.doc.playlists = s.doc.playlists) ∧
    ((ClearHistory fs s).2 = save fs (ClearHistory fs s).1 ∧
      (ClearHistory fs s).1 = (ClearHistory fs2 s).1 ∧
      (ClearHistory fs s).1.doc.history = [] ∧
      (ClearHistory fs s).1.doc.playlists = s.doc.playlists) := by
  obtain ⟨-, hA1, hA2⟩ := AddPlaylist_spec grow fs s p hw
  obtain ⟨-, hD1, hD2⟩ := DeletePlaylist_spec grow fs s id hw
  obtain ⟨-, hH1, hH2⟩ := AddHistory_spec grow fs s ch hw
  obtain ⟨-, hC1, hC2⟩ := ClearHistory_spec fs s hw
  refine ⟨⟨?_, ?_, hA2, hA1⟩, ⟨rfl, rfl, hD2, hD1⟩, ⟨rfl, rfl, hH2, hH1⟩, ⟨rfl, rfl, hC2, hC1⟩⟩
  · unfold AddPlaylist
    cases findID p.ID (s.data.Playlists.view s.pls) 0 <;> rfl
  · unfold AddPlaylist
    cases findID p.ID (s.data.Playlists.view s.pls) 0 <;> rfl

/-- Instance of C7: on a full disk, clearing the history `u2, u1` and adding
`plB` both report the write error and both leave the mutated document in
memory, the same as on a working disk. -/
theorem mutations_report_save_and_keep_state_witness :
    twoHistory.WF ∧ twoHistory.doc.history ≠ [] ∧
    (ClearHistory diskFull twoHistory).2 = some "no space left on device" ∧
    (ClearHistory diskFull twoHistory).1.doc.history = [] ∧
    (AddPlaylist growDouble diskFull twoHistory plB).2 = some "no space left on device" ∧
    (AddPlaylist growDouble diskFull twoHistory plB).1.doc.playlists = [plB] ∧
    (AddPlaylist growDouble diskFull twoHistory plB).1
      = (AddPlaylist growDouble diskOK twoHistory plB).1 :=
  ⟨by decide, by decide,
    (mutations_report_save_and_keep_state growDouble diskFull diskOK twoHistory plB "a"
      (chan "3" "u1") (by decide)).2.2.2.1.trans rfl,
    (mutations_report_save_and_keep_state growDouble diskFull diskOK twoHistory plB "a"
      (chan "3" "u1") (by decide)).2.2.2.2.2.1,
    (mutations_report_save_and_keep_state growDouble diskFull diskOK twoHistory plB "a"
      (chan "3" "u1") (by decide)).1.1.trans rfl,
    (mutations_report_save_and_keep_state growDouble diskFull diskOK twoHistory plB "a"
      (chan "3" "u1") (by decide)).1.2.2.1.trans (by decide),
    (mutations_report_save_and_keep_state growDouble diskFull diskOK twoHistory plB "a"
      (chan "3" "u1") (by decide)).1.2.1⟩

/-! ## Handlers -/

/-- C8: on `POST /api/playlists` the playlist given to `AddPlaylist` is the
decoded one with the id replaced by the generated id only when it is empty and
`createdAt` replaced by the current Unix time only when it is zero (name and
channels as sent); when persisting succeeds the response is 200 with that
playlist, and a following `GET /api/playlists` answers 200 with a list that
contains it. -/
theorem handlePlaylists_post_stores (grow : Nat → Nat → Nat) (fs : Doc → Option String)
    (nanos secs : Int) (s : Storage) (p : Playlist) (hw : s.WF) :
    ∃ q : Playlist,
      q.ID = (if p.ID = "" then genID nanos else p.ID) ∧
      q.Name = p.Name ∧ q.Channels = p.Channels ∧
      q.CreatedAt = (if p.CreatedAt = 0 then secs else p.CreatedAt) ∧
      (handlePlaylists grow fs nanos secs s "POST" (Except.ok p)).1 = (AddPlaylist grow fs s q).1 ∧
      (save fs (AddPlaylist grow fs s q).1 = none →
        (handlePlaylists grow fs nanos secs s "POST" (Except.ok p)).2 = ⟨200, Body.playlist q⟩ ∧
        ∀ grow2 fs2 nanos2 secs2 d, ∃ l,
          (handlePlaylists grow2 fs2 nanos2 secs2
            (handlePlaylists grow fs nanos secs s "POST" (Except.ok p)).1 "GET" d).2
              = ⟨200, Body.playlists l⟩ ∧ q ∈ l) := by
  have hsave : ∀ q, (AddPlaylist grow fs s q).2 = save fs (AddPlaylist grow fs s q).1 := by
    intro q
    unfold AddPlaylist
    cases findID q.ID (s.data.Playlists.view s.pls) 0 <;> rfl
  have hmem : ∀ q, q ∈ (AddPlaylist grow fs s q).1.doc.playlists := by
    intro q
    obtain ⟨-, -, hpl⟩ := AddPlaylist_spec grow fs s q hw
    rw [hpl]
    cases hf : findID q.ID s.doc.playlists 0 with
    | none => simp
    | some i =>
      obtain ⟨j, hij, hj, -, -⟩ := findID_some q.ID _ 0 i hf
      have hi : i = j := by omega
      subst hi
      exact List.mem_iff_getElem?.2 ⟨i, List.getElem?_set_self hj⟩
  have hpost : ("POST" = "GET") = False := by decide
  refine ⟨if (if p.ID = "" then { p with ID := genID nanos } else p).CreatedAt = 0
      then { (if p.ID = "" then { p with ID := genID nanos } else p) with CreatedAt := secs }
      else (if p.ID = "" then { p with ID := genID nanos } else p), ?_, ?_, ?_, ?_, ?_, ?_⟩
  · by_cases h1 : p.ID = "" <;> by_cases h2 : p.CreatedAt = 0 <;> simp [h1, h2]
  · by_cases h1 : p.ID = "" <;> by_cases h2 : p.CreatedAt = 0 <;> simp [h1, h2]
  · by_cases h1 : p.ID = "" <;> by_cases h2 : p.CreatedAt = 0 <;> simp [h1, h2]
  · by_cases h1 : p.ID = "" <;> by_cases h2 : p.CreatedAt = 0 <;> simp [h1, h2]
  · generalize hq : (if (if p.ID = "" then { p with ID := genID nanos } else p).CreatedAt = 0
      then { (if p.ID = "" then { p with ID := genID nanos } else p) with CreatedAt := secs }
      else (if p.ID = "" then { p with ID := genID nanos } else p)) = q
    simp only [handlePlaylists, hpost, if_false, if_true, hq]
    cases (AddPlaylist grow fs s q).2 <;> rfl
  · generalize hq : (if (if p.ID = "" then { p with ID := genID nanos } else p).CreatedAt = 0
      then { (if p.ID = "" then { p with ID := genID nanos } else p) with CreatedAt := secs }
      else (if p.ID = "" then { p with ID := genID nanos } else p)) = q
    intro hok
    have hres : (AddPlaylist grow fs s q).2 = none := (hsave q).trans hok
    have hst : handlePlaylists grow fs nanos secs s "POST" (Except.ok p)
        = ((AddPlaylist grow fs s q).1, ⟨200, Body.playlist q⟩) := by
      simp only [handlePlaylists, hpost, if_false, if_true, hq]
      rw [hres]
    rw [hst]
    refine ⟨rfl, ?_⟩
    intro grow2 fs2 nanos2 secs2 d
    exact ⟨(AddPlaylist grow fs s q).1.doc.playlists, by simp [handlePlaylists, GetAll, Storage.doc, Store.read], hmem q⟩

/-- Instance of C8: posting a playlist without id and creation time to the
storage holding `plA`, `plB`. -/
theorem handlePlaylists_post_stores_witness :
    twoPlaylists.WF ∧
    ∃ q : Playlist,
      q.ID = (if plNew.ID = "" then genID 1700000000123456789 else plNew.ID) ∧
      q.Name = plNew.Name ∧ q.Channels = plNew.Channels ∧
      q.CreatedAt = (if plNew.CreatedAt = 0 then 1700000000 else plNew.CreatedAt) ∧
      (handlePlaylists growDouble diskOK 1700000000123456789 1700000000 twoPlaylists "POST"
        (Except.ok plNew)).1 = (AddPlaylist growDouble diskOK twoPlaylists q).1 ∧
      (save diskOK (AddPlaylist growDouble diskOK twoPlaylists q).1 = none →
        (handlePlaylists growDouble diskOK 1700000000123456789 1700000000 twoPlaylists "POST"
          (Except.ok plNew)).2 = ⟨200, Body.playlist q⟩ ∧
        ∀ grow2 fs2 nanos2 secs2 d, ∃ l,
          (handlePlaylists grow2 fs2 nanos2 secs2
            (handlePlaylists growDouble diskOK 1700000000123456789 1700000000 twoPlaylists "POST"
              (Except.ok plNew)).1 "GET" d).2
              = ⟨200, Body.playlists l⟩ ∧ q ∈ l) :=
  ⟨by decide,
    handlePlaylists_post_stores growDouble diskOK 1700000000123456789 1700000000 twoPlaylists
      plNew (by decide)⟩

/-- Trailing `/` characters of a path under `/api/playlists/` are trailing `/`
characters of what follows the route, when that contains another character. -/
theorem rdropWhile_api_path (A : List Char) : ∀ rest : List Char, (∃ c ∈ rest, c ≠ '/') →
    (A ++ rest).rdropWhile (fun c => c == '/') = A ++ rest.rdropWhile (fun c => c == '/') := by
  intro rest
  induction rest using List.reverseRecOn with
  | nil => rintro ⟨c, hc, -⟩; simp at hc
  | append_singleton R x ih =>
    rintro ⟨c, hc, hne⟩
    rw [← List.append_assoc, List.rdropWhile_concat, List.rdropWhile_concat]
    by_cases hx : x = '/'
    · subst hx
      have hcR : c ∈ R := by
        rcases List.mem_append.1 hc with h | h
        · exact h
        · exact absurd (List.mem_singleton.1 h) hne
      simp only [beq_self_eq_true, if_true]
      exact ih ⟨c, hcR, hne⟩
    · have : (x == '/') = false := by simpa using hx
      simp only [this, Bool.false_eq_true, if_false, List.append_assoc]

/-- The text after the last `/` of `A ++ S` is that of `S` when `A` ends in `/`. -/
theorem rtakeWhile_after_slash (A : List Char) : ∀ S : List Char,
    (A ++ ['/'] ++ S).rtakeWhile (fun c => c != '/') = S.rtakeWhile (fun c => c != '/') := by
  intro S
  induction S using List.reverseRecOn with
  | nil => simp [List.rtakeWhile_concat]
  | append_singleton S x ih =>
    rw [← List.append_assoc, List.rtakeWhile_concat, List.rtakeWhile_concat, ih]

/-- On a target whose only separator is `/` and that has no volume names, for
a path under `/api/playlists/`, `Base` is the text after the last `/` of the
path without its trailing `/` characters. -/
theorem Base_of_api_path (t : Target) (path rest : String)
    (hsep : ∀ c, t.IsPathSeparator c = (c == '/')) (hvol : ∀ l, t.volumeNameLen l = 0)
    (hp : path = "/api/playlists/" ++ rest) :
    Base t path = afterLastSlash (stripTrailingSlashes path) := by
  have hfun : t.IsPathSeparator = fun c => c == '/' := funext hsep
  have hnot : (fun c : Char => !(c == '/')) = (fun c => c != '/') := rfl
  have hdata : path.data = "/api/playlists/".data ++ rest.data := by rw [hp, String.data_append]
  have hmem : 'a' ∈ path.data := by rw [hdata]; exact List.mem_append_left _ (by decide)
  have hne : path ≠ "" := by
    intro h; rw [h] at hmem; exact absurd hmem (by decide)
  have hstrip : path.data.rdropWhile (fun c => c == '/') ≠ [] := by
    intro h
    have := List.rdropWhile_eq_nil_iff.1 h 'a' hmem
    exact absurd this (by decide)
  have hlast : (path.data.rdropWhile (fun c => c == '/')).rtakeWhile (fun c => c != '/') ≠ [] := by
    intro h
    have h1 := List.rtakeWhile_eq_nil_iff.1 h hstrip
    have h2 := List.rdropWhile_last_not (fun c => c == '/') path.data hstrip
    apply h1
    simpa [bne] using h2
  simp only [Base, hfun, hvol, List.drop_zero, hnot, afterLastSlash, stripTrailingSlashes, hne,
    hlast, if_false]

/-- C9 (amended): for a DELETE whose path is `/api/playlists/` followed by text
with at least one character other than `/`, on a build target whose only
path separator is `/` (no volume names), the id given to `DeletePlaylist` is
the text after the last `/` once trailing `/` characters are removed (the
last segment of what follows the route; the text after the last `/` when the
path does not end in `/`), and the playlists deleted are exactly those whose
id equals it. -/
theorem handlePlaylistByID_deletes_base (t : Target) (grow : Nat → Nat → Nat)
    (fs : Doc → Option String) (s : Storage) (path rest : String) (hw : s.WF)
    (hsep : ∀ c, t.IsPathSeparator c = (c == '/')) (hvol : ∀ l, t.volumeNameLen l = 0)
    (hp : path = "/api/playlists/" ++ rest) (hrest : ∃ c ∈ rest.data, c ≠ '/') :
    (handlePlaylistByID t grow fs s "DELETE" path).1
      = (DeletePlaylist grow fs s (Base t path)).1 ∧
    Base t path = afterLastSlash (stripTrailingSlashes path) ∧
    Base t path = afterLastSlash (stripTrailingSlashes rest) ∧
    (path.data.getLast? ≠ some '/' → Base t path = afterLastSlash path) ∧
    (handlePlaylistByID t grow fs s "DELETE" path).1.doc.playlists
      = s.doc.playlists.filter (fun p => decide (p.ID ≠ Base t path)) := by
  have hst : (handlePlaylistByID t grow fs s "DELETE" path).1
      = (DeletePlaylist grow fs s (Base t path)).1 := by
    simp only [handlePlaylistByID, ne_eq, not_true_eq_false, if_false]
    cases (DeletePlaylist grow fs s (Base t path)).2 <;> rfl
  have hbase := Base_of_api_path t path rest hsep hvol hp
  refine ⟨hst, hbase, ?_, ?_, ?_⟩
  · have hdata : path.data = ("/api/playlists".data ++ ['/']) ++ rest.data := by
      rw [hp, String.data_append]; rfl
    rw [hbase]
    simp only [afterLastSlash, stripTrailingSlashes, hdata]
    rw [rdropWhile_api_path _ _ hrest, rtakeWhile_after_slash]
  · intro hlast
    rw [hbase]
    have : path.data.rdropWhile (fun c => c == '/') = path.data := by
      apply List.rdropWhile_eq_self_iff.2
      intro hl h
      apply hlast
      rw [List.getLast?_eq_getLast _ hl]
      simpa using h
    simp only [stripTrailingSlashes, afterLastSlash, this]
  · rw [hst]
    exact (DeletePlaylist_spec grow fs s (Base t path) hw).2.2

/-- Instance of C9 (amended): `DELETE /api/playlists/a` on the storage holding
`plA`, `plB`, built for Unix. -/
theorem handlePlaylistByID_deletes_base_witness :
    twoPlaylists.WF ∧ "/api/playlists/a" = "/api/playlists/" ++ "a" ∧
    (∃ c ∈ "a".data, c ≠ '/') ∧
    Base unixTarget "/api/playlists/a" = afterLastSlash "/api/playlists/a" ∧
    (handlePlaylistByID unixTarget growDouble diskOK twoPlaylists "DELETE"
      "/api/playlists/a").1.doc.playlists
      = twoPlaylists.doc.playlists.filter
          (fun p => decide (p.ID ≠ Base unixTarget "/api/playlists/a")) :=
  ⟨by decide, by decide, ⟨'a', by decide, by decide⟩,
    (handlePlaylistByID_deletes_base unixTarget growDouble diskOK twoPlaylists
      "/api/playlists/a" "a" (by decide) (fun _ => rfl) (fun _ => rfl) (by decide)
      ⟨'a', by decide, by decide⟩).2.2.2.1 (by decide),
    (handlePlaylistByID_deletes_base unixTarget growDouble diskOK twoPlaylists
      "/api/playlists/a" "a" (by decide) (fun _ => rfl) (fun _ => rfl) (by decide)
      ⟨'a', by decide, by decide⟩).2.2.2.2⟩

/-- C9 as stated fails: for the path `/api/playlists/a/` the text after the
last `/` is empty, yet the handler (built for Unix) passes `a` and deletes the
playlist with that id (deleting by the empty text would delete nothing). -/
theorem handlePlaylistByID_trailing_slash :
    "/api/playlists/a/" = "/api/playlists/" ++ "a/" ∧
    afterLastSlash "/api/playlists/a/" = "" ∧ Base unixTarget "/api/playlists/a/" = "a" ∧
    twoPlaylists.doc.playlists = [plA, plB] ∧
    (handlePlaylistByID unixTarget growDouble diskOK twoPlaylists "DELETE"
      "/api/playlists/a/").1.doc.playlists = [plB] ∧
    (DeletePlaylist growDouble diskOK twoPlaylists
      (afterLastSlash "/api/playlists/a/")).1.doc.playlists = [plA, plB] := by
  decide

/-- When nothing follows the route (`DELETE /api/playlists/`), `filepath.Base`
returns the route word itself: the handler passes `playlists` and deletes the
playlist that has this id, although the request names no id. -/
theorem handlePlaylistByID_route_word :
    Base unixTarget "/api/playlists/" = "playlists" ∧
    routeWordStorage.doc.playlists = [plRoute] ∧
    (handlePlaylistByID unixTarget growDouble diskOK routeWordStorage "DELETE"
      "/api/playlists/").1.doc.playlists = [] := by
  decide

/-- C10 fails on the code: the value returned by `GetAll` holds slice headers
into the arrays the mutators write in place.  Read after `DeletePlaylist`,
`AddPlaylist` (existing id) or `AddHistory` (existing url), the value returned
earlier no longer shows the document it showed when `GetAll` returned. -/
theorem GetAll_snapshot_shares_arrays :
    (GetAll twoPlaylists).2.read twoPlaylists.pls twoPlaylists.chs = ⟨[plA, plB], []⟩ ∧
    (GetAll twoPlaylists).2.read (DeletePlaylist growDouble diskOK twoPlaylists "a").1.pls
      (DeletePlaylist growDouble diskOK twoPlaylists "a").1.chs = ⟨[plB, plB], []⟩ ∧
    (GetAll twoPlaylists).2.read (AddPlaylist growDouble diskOK twoPlaylists plA2).1.pls
      (AddPlaylist growDouble diskOK twoPlaylists plA2).1.chs = ⟨[plA2, plB], []⟩ ∧
    (GetAll twoHistory).2.read twoHistory.pls twoHistory.chs
      = ⟨[], [chan "2" "u2", chan "1" "u1"]⟩ ∧
    (GetAll twoHistory).2.read (AddHistory growDouble diskOK twoHistory (chan "3" "u2")).1.pls
      (AddHistory growDouble diskOK twoHistory (chan "3" "u2")).1.chs
      = ⟨[], [chan "1" "u1", chan "1" "u1"]⟩ := by
  decide

end WebPlayer
